import Mathlib

/-!
# Verification of the aud2 knapsack / subset-sum library

Shallow embedding of the algorithm core of the `aud2` crate
(`src/knapsack.rs`, `src/subset_sum.rs`) and proofs of the specification
claims about it.

Machine integers (`u64`, `usize`) are modelled as `ℕ`; the claims under
verification all carry the precondition that makes overflow irrelevant
(profits and weights are small test data), and the one place where the
Rust code performs a possibly-truncating subtraction is analysed
explicitly (`knapsackDPChecked`, integer-greedy weight invariant).
The `fraction::Fraction` values are modelled as `ℚ` on the positive-profit
domain, and as the extended type `FractionExt` (finite / infinity / NaN)
where the behaviour at zero profit matters.
-/

namespace Aud2

/-- `Item` from `src/knapsack.rs`: an object with a unique id, a profit and
a weight. -/
structure Item where
  id : ℕ
  profit : ℕ
  weight : ℕ
deriving DecidableEq, Repr

/-- `Item::weight_profit_ratio`: `weight / profit` as an exact rational.
Faithful whenever `profit > 0`; for `profit = 0` the Rust `fraction` crate
yields ∞ or NaN, which is modelled separately by `FractionExt` below. -/
def Item.weightProfitRatio (it : Item) : ℚ :=
  (it.weight : ℚ) / (it.profit : ℚ)

/-- The "less or equal" order underlying `cmp_items` (compare items by
their weight/profit ratio). -/
def ratioLe (a b : Item) : Prop :=
  a.weightProfitRatio ≤ b.weightProfitRatio

instance : DecidableRel ratioLe :=
  fun a b => inferInstanceAs (Decidable (_ ≤ _))

instance : IsTotal Item ratioLe :=
  ⟨fun _ _ => le_total _ _⟩

instance : IsTrans Item ratioLe :=
  ⟨fun _ _ _ => le_trans⟩

/-- `items.sort_by(cmp_items)`: Rust's `sort_by` is a stable sort, and for a
total preorder comparator all stable sorts produce the same list;
`List.insertionSort` with a `≤`-style relation keeps earlier elements ahead
of later equal-ratio ones, i.e. it is stable, so it is a faithful model. -/
def sortItems (items : List Item) : List Item :=
  List.insertionSort ratioLe items

/-- `PartialPackedItem` from `src/knapsack.rs`: an item together with the
fraction of it that was put into the knapsack. -/
structure PartialPackedItem where
  item : Item
  takePortion : ℚ
deriving DecidableEq, Repr

/-- `PartialPackedItem::effective_weight`: `weight * take_portion`. -/
def PartialPackedItem.effectiveWeight (p : PartialPackedItem) : ℚ :=
  (p.item.weight : ℚ) * p.takePortion

/-- `PartialPackedItem::effective_profit`: `profit * take_portion`. -/
def PartialPackedItem.effectiveProfit (p : PartialPackedItem) : ℚ :=
  (p.item.profit : ℚ) * p.takePortion

/-- Sum of effective weights of a packed knapsack. -/
def ppiWeightSum (l : List PartialPackedItem) : ℚ :=
  (l.map PartialPackedItem.effectiveWeight).sum

/-- Sum of effective profits of a packed knapsack. -/
def ppiProfitSum (l : List PartialPackedItem) : ℚ :=
  (l.map PartialPackedItem.effectiveProfit).sum

/-- Total profit of a 0/1 selection. -/
def profitSum (l : List Item) : ℕ := (l.map Item.profit).sum

/-- Total weight of a 0/1 selection. -/
def weightSum (l : List Item) : ℕ := (l.map Item.weight).sum

/-- The `take_fraction` computation of `fractional_knapsack_greedy`:
`available / weight` capped at 1.  For a zero-weight item the Rust
`Fraction` division `available / 0` is +∞ (the available weight is
positive whenever this is evaluated), which the cap turns into 1. -/
def takeFraction (avail : ℚ) (it : Item) : ℚ :=
  if it.weight = 0 then 1
  else if 1 < avail / (it.weight : ℚ) then 1
  else avail / (it.weight : ℚ)

/-- The loop of `fractional_knapsack_greedy` over the already sorted item
list.  Each iteration recomputes the used weight from the accumulated
knapsack, breaks when no capacity is left, and otherwise pushes the new
item with its take fraction. -/
def fracGo (weightLimit : ℚ) : List Item → List PartialPackedItem → List PartialPackedItem
  | [], knapsack => knapsack
  | newItem :: rest, knapsack =>
    let used := ppiWeightSum knapsack
    let avail := weightLimit - used
    if avail ≤ 0 then knapsack
    else fracGo weightLimit rest (knapsack ++ [⟨newItem, takeFraction avail newItem⟩])

/-- `fractional_knapsack_greedy` from `src/knapsack.rs`: sort by ratio, then
run the greedy loop starting from the empty knapsack. -/
def fractionalKnapsackGreedy (items : List Item) (weightLimit : ℕ) : List PartialPackedItem :=
  fracGo (weightLimit : ℚ) (sortItems items) []

/-- The loop of `knapsack_integer_greedy` over the already sorted item list.
`avail` is the `u64` subtraction `weight_capacity - used_knapsack_weight`,
modelled by truncated `ℕ` subtraction; the no-underflow claim about it is
proved separately. -/
def intGo (weightCapacity : ℕ) : List Item → List Item → List Item
  | [], knapsack => knapsack
  | newItem :: rest, knapsack =>
    let used := weightSum knapsack
    let avail := weightCapacity - used
    if avail ≤ 0 then knapsack
    else if avail < newItem.weight then intGo weightCapacity rest knapsack
    else intGo weightCapacity rest (knapsack ++ [newItem])

/-- `knapsack_integer_greedy` from `src/knapsack.rs`. -/
def knapsackIntegerGreedy (items : List Item) (weightCapacity : ℕ) : List Item :=
  intGo weightCapacity (sortItems items) []

/-- One cell update of `knapsack_dynamic_programming`: given the row from
the previous item iteration, compute the new cell at `index`.  The Rust
code updates the row in place walking the indices from high to low, but
every value it reads (`row[index]` and `row[index - weight]` with
`weight ≥ 0`) sits at an index that has not yet been overwritten in that
pass, so the in-place loop computes exactly this function of the old row.
The `saturating_sub` appears here as truncated `ℕ` subtraction; the claim
that it never actually saturates is proved via `knapsackDPChecked`. -/
def dpCell (row : List (List Item)) (item : Item) (index : ℕ) : List Item :=
  if item.weight > index then row.getD index []
  else if item.profit + profitSum (row.getD (index - item.weight) []) ≤
      profitSum (row.getD index []) then row.getD index []
  else row.getD (index - item.weight) [] ++ [item]

/-- One item iteration of `knapsack_dynamic_programming`: rebuild every
cell of the row. -/
def dpStep (row : List (List Item)) (item : Item) : List (List Item) :=
  (List.range row.length).map (dpCell row item)

/-- `knapsack_dynamic_programming` from `src/knapsack.rs`: start from
`weight_capacity + 1` empty cells, fold the items through the row update,
and return the last cell (`row.pop().unwrap_or_default()`). -/
def knapsackDynamicProgramming (items : List Item) (weightCapacity : ℕ) : List Item :=
  let row := items.foldl dpStep (List.replicate (weightCapacity + 1) [])
  row.getLast?.getD []

/-- Checked subtraction: `none` models a `u64` underflow. -/
def checkedSub (a b : ℕ) : Option ℕ :=
  if b ≤ a then some (a - b) else none

/-- `dpCell` with the saturating subtraction replaced by checked
subtraction, to state that the saturation case is never reached. -/
def dpCellChecked (row : List (List Item)) (item : Item) (index : ℕ) : Option (List Item) :=
  if item.weight > index then some (row.getD index [])
  else
    match checkedSub index item.weight with
    | none => none
    | some remaining =>
      if item.profit + profitSum (row.getD remaining []) ≤ profitSum (row.getD index [])
      then some (row.getD index [])
      else some (row.getD remaining [] ++ [item])

/-- `dpStep` with checked subtraction. -/
def dpStepChecked (row : List (List Item)) (item : Item) : Option (List (List Item)) :=
  (List.range row.length).mapM (dpCellChecked row item)

/-- `knapsack_dynamic_programming` with checked subtraction everywhere. -/
def knapsackDPChecked (items : List Item) (weightCapacity : ℕ) : Option (List Item) :=
  (items.foldlM dpStepChecked (List.replicate (weightCapacity + 1) ([] : List Item))).map
    (fun row => row.getLast?.getD [])

/-- One row update of `subset_sum` (`src/subset_sum.rs`): the union of the
previous row with every previous sum shifted by the new number. -/
def subsetSumStep (lastRow : Finset ℕ) (newNumber : ℕ) : Finset ℕ :=
  lastRow ∪ lastRow.image (fun s => s + newNumber)

/-- `subset_sum` from `src/subset_sum.rs`: for the empty input the table is
returned empty before the base row is pushed; otherwise the table starts
with `{0}` and each number appends one row derived from the last one.
`HashSet<u64>` is modelled as `Finset ℕ`. -/
def subsetSum (numbers : List ℕ) : List (Finset ℕ) :=
  if numbers = [] then []
  else
    numbers.foldl
      (fun table newNumber => table ++ [subsetSumStep ((table.getLast?).getD ∅) newNumber])
      [({0} : Finset ℕ)]

/-- The 0/1-knapsack optimum: the largest total profit of a feasible
sub-selection.  Specification function used to state optimality. -/
def opt : List Item → ℕ → ℕ
  | [], _ => 0
  | it :: rest, c =>
    if it.weight ≤ c then max (opt rest c) (it.profit + opt rest (c - it.weight))
    else opt rest c

/-- The fractional greedy loop with the remaining capacity threaded as an
argument instead of recomputed from the accumulated knapsack.  Auxiliary
description of `fracGo` used in proofs. -/
def fracTakes (c : ℚ) : List Item → List PartialPackedItem
  | [] => []
  | it :: rest =>
    if c ≤ 0 then []
    else ⟨it, takeFraction c it⟩ :: fracTakes (c - (it.weight : ℚ) * takeFraction c it) rest

-- ------- The fraction crate's extended values (for the zero-profit claims) -------

/-- Values of the `fraction` crate's `Fraction` type as produced by
`Item::weight_profit_ratio`: a finite non-negative rational, +∞
(`weight / 0` with positive weight), or NaN (`0 / 0`). -/
inductive FractionExt where
  | rat (q : ℚ)
  | infinity
  | nan
deriving DecidableEq, Repr

/-- `Fraction::new(weight, profit)` as `weight_profit_ratio` computes it,
including the zero-profit cases. -/
def weightProfitRatioExt (it : Item) : FractionExt :=
  if it.profit = 0 then
    (if it.weight = 0 then FractionExt.nan else FractionExt.infinity)
  else FractionExt.rat ((it.weight : ℚ) / (it.profit : ℚ))

/-- `PartialOrd::partial_cmp` on the crate's fractions: NaN compares to
nothing (`None`), +∞ equals itself and exceeds every finite value. -/
def fractionPartialCmp : FractionExt → FractionExt → Option Ordering
  | FractionExt.nan, _ => none
  | _, FractionExt.nan => none
  | FractionExt.infinity, FractionExt.infinity => some Ordering.eq
  | FractionExt.infinity, FractionExt.rat _ => some Ordering.gt
  | FractionExt.rat _, FractionExt.infinity => some Ordering.lt
  | FractionExt.rat a, FractionExt.rat b =>
    some (if a < b then Ordering.lt else if a = b then Ordering.eq else Ordering.gt)

/-- `cmp_items` from `src/knapsack.rs`: compare two items' ratios with
`partial_cmp` and `.expect(...)`.  The `none` outcome models the panic of
the `expect`; the function has no error return type. -/
def cmpItemsChecked (a b : Item) : Option Ordering :=
  fractionPartialCmp (weightProfitRatioExt a) (weightProfitRatioExt b)

-- ------- Concrete test fixtures (from the repository's test data) -------

/-- The canonical 16-item instance (`static ITEMS` in the tests),
as `⟨id, profit, weight⟩`. -/
def items16 : List Item :=
  [⟨1, 3, 20⟩, ⟨2, 3, 32⟩, ⟨3, 10, 40⟩, ⟨4, 5, 8⟩, ⟨5, 2, 16⟩, ⟨6, 4, 4⟩,
   ⟨7, 2, 32⟩, ⟨8, 9, 40⟩, ⟨9, 2, 8⟩, ⟨10, 5, 32⟩, ⟨11, 3, 28⟩, ⟨12, 9, 20⟩,
   ⟨13, 10, 16⟩, ⟨14, 3, 20⟩, ⟨15, 10, 40⟩, ⟨16, 4, 24⟩]

/-- The 7-item maximum-knapsack instance of `test_maximum_knapsack`. -/
def dpItems : List Item :=
  [⟨0, 6, 2⟩, ⟨1, 5, 3⟩, ⟨2, 8, 6⟩, ⟨3, 9, 7⟩, ⟨4, 6, 5⟩, ⟨5, 7, 9⟩, ⟨6, 3, 4⟩]

/-- The subset-sum test input. -/
def testNumbers : List ℕ := [7, 13, 17, 20, 29, 31, 31, 35, 57]

/-- The 174-element reference set `EXPECTED_REACHABLE_SUMS` of
`tests/subset_sum.rs` (identical to the last row expected by the test
inside `src/subset_sum.rs`). -/
def refSums : Finset ℕ :=
  {174, 36, 183, 62, 172, 158, 140, 116, 151, 149, 79, 203, 37, 139, 126, 220, 0, 85, 147, 
   200, 115, 49, 153, 133, 96, 97, 144, 233, 130, 143, 152, 128, 57, 159, 132, 46, 105, 20, 
   65, 108, 74, 138, 89, 179, 163, 185, 118, 101, 44, 52, 77, 123, 184, 191, 202, 170, 135, 
   17, 48, 88, 71, 72, 150, 121, 51, 146, 31, 196, 27, 93, 83, 106, 154, 181, 166, 240, 119, 
   7, 148, 40, 156, 100, 190, 107, 73, 24, 69, 50, 189, 127, 213, 70, 104, 155, 55, 30, 56, 
   141, 145, 94, 91, 209, 35, 175, 182, 160, 165, 211, 84, 178, 167, 42, 180, 110, 134, 187, 
   112, 216, 13, 53, 95, 142, 81, 111, 68, 204, 75, 122, 86, 136, 109, 205, 98, 60, 114, 192, 
   223, 59, 58, 173, 92, 137, 129, 102, 171, 99, 87, 90, 169, 38, 33, 131, 82, 210, 227, 176, 
   207, 157, 64, 168, 67, 66, 124, 113, 161, 188, 29, 198, 125, 103, 117, 80, 194, 61}


-- ------- Branch and bound (modelled from the spec) -------

/-- The lower-bound candidate of a branch-and-bound node: the fixed items
plus the integer greedy picks on the remaining items (spec section 4.5
step 1). -/
def bbLower (remaining : List Item) (weightLimit : ℕ) (fixed : List Item) : List Item :=
  fixed ++ knapsackIntegerGreedy remaining weightLimit

/-- Replace the incumbent when a candidate solution beats its profit
(spec section 4.5 step 1). -/
def bbIncumbent (candidate incumbent : List Item) : List Item :=
  if profitSum incumbent < profitSum candidate then candidate else incumbent

/-- The upper bound of a node: fixed profit plus the floored fractional
greedy value on the remaining items (spec section 4.5 step 2). -/
def bbUpper (remaining : List Item) (weightLimit : ℕ) (fixed : List Item) : ℕ :=
  profitSum fixed +
    (⌊ppiProfitSum (fractionalKnapsackGreedy remaining weightLimit)⌋).toNat

/-- Modelled from the spec: the recursion of the `branch_and_bound` solver
(spec section 4.5).  The selection-returning `branch_and_bound` called by
`tests/knapsack.rs` and `src/main.rs` is absent from the compiled library
sources (`src/knapsack.rs` carries only a commented-out profit-only
draft), so this follows the spec's step description: per node, update the
incumbent with the integer-greedy lower-bound candidate, prune when the
floored fractional-greedy upper bound does not exceed the incumbent's
profit, otherwise branch on the first remaining item — recurse excluding
it, then (only if it fits) including it, each recursive call receiving
the current incumbent; with no remaining items return the incumbent. -/
def bbGo (remaining : List Item) (weightLimit : ℕ) (fixed incumbent : List Item) :
    List Item :=
  if bbUpper remaining weightLimit fixed ≤
      profitSum (bbIncumbent (bbLower remaining weightLimit fixed) incumbent) then
    bbIncumbent (bbLower remaining weightLimit fixed) incumbent
  else
    match remaining with
    | [] => bbIncumbent (bbLower remaining weightLimit fixed) incumbent
    | first :: rest =>
      if first.weight ≤ weightLimit then
        bbGo rest (weightLimit - first.weight) (fixed ++ [first])
          (bbGo rest weightLimit fixed
            (bbIncumbent (bbLower (first :: rest) weightLimit fixed) incumbent))
      else
        bbGo rest weightLimit fixed
          (bbIncumbent (bbLower (first :: rest) weightLimit fixed) incumbent)
termination_by remaining.length

/-- Modelled from the spec: `branch_and_bound` — sort by ratio once, then
run the recursion with the full weight limit, no fixed items and an empty
incumbent. -/
def branchAndBound (items : List Item) (weightLimit : ℕ) : List Item :=
  bbGo (sortItems items) weightLimit [] []


theorem ppiWeightSum_append (a b : List PartialPackedItem) :
    ppiWeightSum (a ++ b) = ppiWeightSum a + ppiWeightSum b := by
  simp [ppiWeightSum]

theorem ppiProfitSum_append (a b : List PartialPackedItem) :
    ppiProfitSum (a ++ b) = ppiProfitSum a + ppiProfitSum b := by
  simp [ppiProfitSum]

theorem weightSum_append (a b : List Item) :
    weightSum (a ++ b) = weightSum a + weightSum b := by
  simp [weightSum]

theorem profitSum_append (a b : List Item) :
    profitSum (a ++ b) = profitSum a + profitSum b := by
  simp [profitSum]

theorem ppiWeightSum_cons (p : PartialPackedItem) (l : List PartialPackedItem) :
    ppiWeightSum (p :: l) = p.effectiveWeight + ppiWeightSum l := by
  simp [ppiWeightSum]

theorem ppiProfitSum_cons (p : PartialPackedItem) (l : List PartialPackedItem) :
    ppiProfitSum (p :: l) = p.effectiveProfit + ppiProfitSum l := by
  simp [ppiProfitSum]

theorem takeFraction_nonneg {avail : ℚ} (it : Item) (h : 0 ≤ avail) :
    0 ≤ takeFraction avail it := by
  rw [takeFraction]
  split
  · exact zero_le_one
  · split
    · exact zero_le_one
    · positivity

theorem takeFraction_le_one (avail : ℚ) (it : Item) : takeFraction avail it ≤ 1 := by
  rw [takeFraction]
  split
  · exact le_refl 1
  · split
    · exact le_refl 1
    next h => exact le_of_not_lt h

/-- The weight spent on one item never exceeds the available capacity. -/
theorem spent_le {avail : ℚ} (it : Item) (h : 0 < avail) :
    (it.weight : ℚ) * takeFraction avail it ≤ avail := by
  rw [takeFraction]
  split
  next hw => simp [hw]; linarith
  next hw =>
    have hwpos : (0 : ℚ) < (it.weight : ℚ) := by exact_mod_cast Nat.pos_of_ne_zero hw
    split
    next hcap =>
      have : (it.weight : ℚ) < avail := by rwa [lt_div_iff₀ hwpos, one_mul] at hcap
      linarith
    next hcap =>
      rw [mul_div_cancel₀ _ (ne_of_gt hwpos)]

theorem spent_nonneg {avail : ℚ} (it : Item) (h : 0 ≤ avail) :
    0 ≤ (it.weight : ℚ) * takeFraction avail it :=
  mul_nonneg (by positivity) (takeFraction_nonneg it h)

/-- An item that fits completely is taken completely. -/
theorem takeFraction_eq_one {avail : ℚ} (it : Item) (h : (it.weight : ℚ) ≤ avail) :
    takeFraction avail it = 1 := by
  rw [takeFraction]
  split
  · rfl
  next hw =>
    have hwpos : (0 : ℚ) < (it.weight : ℚ) := by exact_mod_cast Nat.pos_of_ne_zero hw
    split
    · rfl
    next hcap =>
      have h1 : 1 ≤ avail / (it.weight : ℚ) := by
        rw [le_div_iff₀ hwpos, one_mul]; exact h
      have h2 : avail / (it.weight : ℚ) ≤ 1 := le_of_not_lt hcap
      linarith

theorem takeFraction_mono {a b : ℚ} (it : Item) (hab : a ≤ b) :
    takeFraction a it ≤ takeFraction b it := by
  by_cases hw : it.weight = 0
  · simp [takeFraction, hw]
  · have hwpos : (0 : ℚ) < (it.weight : ℚ) := by exact_mod_cast Nat.pos_of_ne_zero hw
    have hdiv : a / (it.weight : ℚ) ≤ b / (it.weight : ℚ) := by gcongr
    rw [takeFraction, takeFraction, if_neg hw, if_neg hw]
    by_cases hcapa : 1 < a / (it.weight : ℚ)
    · rw [if_pos hcapa, if_pos (lt_of_lt_of_le hcapa hdiv)]
    · rw [if_neg hcapa]
      by_cases hcapb : 1 < b / (it.weight : ℚ)
      · rw [if_pos hcapb]; exact le_of_not_lt hcapa
      · rw [if_neg hcapb]; exact hdiv

/-- The remaining capacity after taking one item is monotone in the
starting capacity. -/
theorem remaining_mono {a b : ℚ} (it : Item) (hab : a ≤ b) :
    a - (it.weight : ℚ) * takeFraction a it ≤ b - (it.weight : ℚ) * takeFraction b it := by
  by_cases hw : it.weight = 0
  · simp [takeFraction, hw, hab]
  · have hwpos : (0 : ℚ) < (it.weight : ℚ) := by exact_mod_cast Nat.pos_of_ne_zero hw
    have hcancel : ∀ x : ℚ, (it.weight : ℚ) * (x / (it.weight : ℚ)) = x :=
      fun x => mul_div_cancel₀ x (ne_of_gt hwpos)
    rw [takeFraction, takeFraction, if_neg hw, if_neg hw]
    by_cases hcapa : 1 < a / (it.weight : ℚ)
    · rw [if_pos hcapa, if_pos (lt_of_lt_of_le hcapa (by gcongr))]
      linarith
    · rw [if_neg hcapa, hcancel a]
      by_cases hcapb : 1 < b / (it.weight : ℚ)
      · rw [if_pos hcapb]
        have : (it.weight : ℚ) < b := by rwa [lt_div_iff₀ hwpos, one_mul] at hcapb
        linarith
      · rw [if_neg hcapb, hcancel b]
        simp

/-- The effective weight placed by the threaded greedy loop never exceeds
the remaining capacity. -/
theorem fracTakes_weight_le (l : List Item) :
    ∀ c : ℚ, 0 ≤ c → ppiWeightSum (fracTakes c l) ≤ c := by
  induction l with
  | nil =>
    intro c hc
    simpa [fracTakes, ppiWeightSum] using hc
  | cons it rest ih =>
    intro c hc
    by_cases h : c ≤ 0
    · simpa [fracTakes, h, ppiWeightSum] using hc
    · push_neg at h
      rw [fracTakes, if_neg (not_le.mpr h), ppiWeightSum_cons]
      have hspent := spent_le it h
      have hrem : (0 : ℚ) ≤ c - (it.weight : ℚ) * takeFraction c it := by linarith
      have hr := ih (c - (it.weight : ℚ) * takeFraction c it) hrem
      simp only [PartialPackedItem.effectiveWeight] at *
      linarith

/-- Recomputing the used weight each round (as the Rust loop does) and
threading the remaining capacity are the same computation. -/
theorem fracGo_eq_fracTakes (weightLimit : ℚ) (l : List Item) :
    ∀ ks, fracGo weightLimit l ks = ks ++ fracTakes (weightLimit - ppiWeightSum ks) l := by
  induction l with
  | nil => intro ks; simp [fracGo, fracTakes]
  | cons it rest ih =>
    intro ks
    simp only [fracGo, fracTakes]
    by_cases h : weightLimit - ppiWeightSum ks ≤ 0
    · simp [h]
    · simp only [if_neg h]
      rw [ih]
      simp only [ppiWeightSum_append, List.append_assoc, List.cons_append, List.nil_append]
      have hone : ppiWeightSum [⟨it, takeFraction (weightLimit - ppiWeightSum ks) it⟩] =
          (it.weight : ℚ) * takeFraction (weightLimit - ppiWeightSum ks) it := by
        simp [ppiWeightSum, PartialPackedItem.effectiveWeight]
      rw [hone]
      ring_nf

/-- Feasibility of the fractional greedy output for any weight limit. -/
theorem fractionalKnapsackGreedy_weight_le (items : List Item) (weightLimit : ℕ) :
    ppiWeightSum (fractionalKnapsackGreedy items weightLimit) ≤ (weightLimit : ℚ) := by
  rw [fractionalKnapsackGreedy, fracGo_eq_fracTakes]
  simpa [ppiWeightSum] using
    fracTakes_weight_le (sortItems items) (weightLimit : ℚ) (by positivity)

/-- The integer greedy loop keeps the selected weight within the capacity. -/
theorem intGo_weight_le (weightCapacity : ℕ) (l : List Item) :
    ∀ ks, weightSum ks ≤ weightCapacity → weightSum (intGo weightCapacity l ks) ≤ weightCapacity := by
  induction l with
  | nil => intro ks h; simpa [intGo] using h
  | cons it rest ih =>
    intro ks h
    rw [intGo]
    split
    · exact h
    next h1 =>
      split
      · exact ih ks h
      next h2 =>
        refine ih _ ?_
        rw [weightSum_append]
        have hone : weightSum [it] = it.weight := by simp [weightSum]
        rw [hone]
        omega

/-- Feasibility of the integer greedy output for any weight capacity. -/
theorem knapsackIntegerGreedy_weight_le (items : List Item) (weightCapacity : ℕ) :
    weightSum (knapsackIntegerGreedy items weightCapacity) ≤ weightCapacity :=
  intGo_weight_le weightCapacity (sortItems items) [] (by simp [weightSum])

theorem getD_range_map {α : Type} (f : ℕ → α) (n i : ℕ) (d : α) :
    ((List.range n).map f).getD i d = if i < n then f i else d := by
  by_cases h : i < n
  · rw [List.getD_eq_getElem?_getD, List.getElem?_map, List.getElem?_range h]
    simp [h]
  · rw [List.getD_eq_getElem?_getD,
      List.getElem?_eq_none (by simp only [List.length_map, List.length_range]; omega)]
    simp [h]

/-- Every cell of the dynamic-programming row stays within its weight
limit (the cell index). -/
theorem dpCell_weight_le (row : List (List Item)) (item : Item)
    (h : ∀ i, weightSum (row.getD i []) ≤ i) (i : ℕ) :
    weightSum (dpCell row item i) ≤ i := by
  rw [dpCell]
  split
  · exact h i
  · split
    · exact h i
    · have hrem := h (i - item.weight)
      rw [weightSum_append]
      simp only [weightSum, List.map_cons, List.map_nil, List.sum_cons, List.sum_nil] at hrem ⊢
      omega

theorem dpStep_weight_le (row : List (List Item)) (item : Item)
    (h : ∀ i, weightSum (row.getD i []) ≤ i) (i : ℕ) :
    weightSum ((dpStep row item).getD i []) ≤ i := by
  rw [dpStep, getD_range_map]
  split
  · exact dpCell_weight_le row item h i
  · simp [weightSum]

theorem dp_foldl_weight_le (items : List Item) :
    ∀ row : List (List Item), (∀ i, weightSum (row.getD i []) ≤ i) →
      ∀ i, weightSum ((items.foldl dpStep row).getD i []) ≤ i := by
  induction items with
  | nil => intro row h i; exact h i
  | cons it rest ih =>
    intro row h i
    exact ih (dpStep row it) (dpStep_weight_le row it h) i

theorem dpStep_length (row : List (List Item)) (item : Item) :
    (dpStep row item).length = row.length := by
  simp [dpStep]

theorem dp_foldl_length (items : List Item) :
    ∀ row : List (List Item), (items.foldl dpStep row).length = row.length := by
  induction items with
  | nil => intro row; rfl
  | cons it rest ih => intro row; rw [List.foldl_cons, ih, dpStep_length]

/-- Feasibility of the dynamic-programming output for any weight
capacity. -/
theorem knapsackDynamicProgramming_weight_le (items : List Item) (weightCapacity : ℕ) :
    weightSum (knapsackDynamicProgramming items weightCapacity) ≤ weightCapacity := by
  rw [knapsackDynamicProgramming]
  have hlen : (items.foldl dpStep (List.replicate (weightCapacity + 1) [])).length
      = weightCapacity + 1 := by
    rw [dp_foldl_length]; simp
  have hrepl : ∀ i, (List.replicate (weightCapacity + 1) ([] : List Item)).getD i [] = [] := by
    intro i
    by_cases h : i < weightCapacity + 1 <;>
      simp [List.getD_eq_getElem?_getD, List.getElem?_replicate, h]
  have hinv := dp_foldl_weight_le items (List.replicate (weightCapacity + 1) [])
    (fun i => by simp [hrepl i, weightSum]) weightCapacity
  rw [List.getLast?_eq_getElem?, hlen] at *
  simpa [List.getD_eq_getElem?_getD, hlen] using hinv

/-- The checked cell update never hits the underflow case: the fit check
`item.weight > index` precedes the subtraction. -/
theorem dpCellChecked_eq (row : List (List Item)) (item : Item) (index : ℕ) :
    dpCellChecked row item index = some (dpCell row item index) := by
  rw [dpCellChecked, dpCell]
  split
  · rfl
  next h =>
    rw [checkedSub, if_pos (Nat.le_of_not_lt h)]
    split
    next heq => simp at heq
    next rem heq =>
      injection heq with h2
      subst h2
      split <;> rfl

theorem mapM_option_some {α β : Type} (g : α → β) (l : List α) :
    l.mapM (fun a => some (g a)) = some (l.map g) := by
  induction l with
  | nil => rfl
  | cons a t ih => rw [List.mapM_cons, ih]; rfl

theorem dpStepChecked_eq (row : List (List Item)) (item : Item) :
    dpStepChecked row item = some (dpStep row item) := by
  rw [dpStepChecked, dpStep]
  have hf : dpCellChecked row item = fun i => some (dpCell row item i) :=
    funext (dpCellChecked_eq row item)
  rw [hf]
  exact mapM_option_some _ _

/-- The whole dynamic-programming solver, recomputed with checked
subtraction, succeeds and returns the same selection. -/
theorem knapsackDPChecked_eq (items : List Item) (weightCapacity : ℕ) :
    knapsackDPChecked items weightCapacity
      = some (knapsackDynamicProgramming items weightCapacity) := by
  rw [knapsackDPChecked, knapsackDynamicProgramming]
  have hfold : ∀ row : List (List Item),
      items.foldlM dpStepChecked row = some (items.foldl dpStep row) := by
    induction items with
    | nil => intro row; rfl
    | cons it rest ih =>
      intro row
      rw [List.foldlM_cons, dpStepChecked_eq, List.foldl_cons]
      simpa using ih (dpStep row it)
  rw [hfold]
  rfl

-- ------- Row structure of the subset-sum table -------

/-- The fold of `subset_sum` only ever appends, so it computes a `scanl`
of the row update over the numbers. -/
theorem subsetSum_foldl_scanl (numbers : List ℕ) :
    ∀ (pre : List (Finset ℕ)) (r : Finset ℕ),
      numbers.foldl
        (fun table newNumber => table ++ [subsetSumStep ((table.getLast?).getD ∅) newNumber])
        (pre ++ [r])
      = pre ++ List.scanl subsetSumStep r numbers := by
  induction numbers with
  | nil => intro pre r; simp [List.scanl]
  | cons n rest ih =>
    intro pre r
    rw [List.foldl_cons]
    have hlast : ((pre ++ [r]).getLast?).getD ∅ = r := by
      rw [List.getLast?_concat]
      rfl
    rw [hlast, List.append_assoc, ← List.append_assoc pre]
    rw [ih (pre ++ [r]) (subsetSumStep r n)]
    simp [List.scanl]

theorem subsetSum_eq_scanl (numbers : List ℕ) (h : numbers ≠ []) :
    subsetSum numbers = List.scanl subsetSumStep {0} numbers := by
  rw [subsetSum, if_neg h]
  simpa using subsetSum_foldl_scanl numbers [] {0}

theorem scanl_getD_zero (l : List ℕ) (b : Finset ℕ) :
    (List.scanl subsetSumStep b l).getD 0 ∅ = b := by
  cases l <;> simp [List.scanl]

theorem scanl_getD_succ (l : List ℕ) :
    ∀ (b : Finset ℕ) (i : ℕ), i < l.length →
      (List.scanl subsetSumStep b l).getD (i + 1) ∅ =
        subsetSumStep ((List.scanl subsetSumStep b l).getD i ∅) (l.getD i 0) := by
  induction l with
  | nil => intro b i h; exact absurd h (by simp)
  | cons n rest ih =>
    intro b i h
    match i with
    | 0 =>
      simp only [List.scanl, List.getD_cons_succ, List.getD_cons_zero, scanl_getD_zero]
    | j + 1 =>
      simp only [List.scanl, List.getD_cons_succ]
      exact ih (subsetSumStep b n) j (by simpa using h)

-- ------- Domination of the fractional greedy value -------

/-- Capacity at most zero: the greedy loop selects nothing. -/
theorem fracTakes_nonpos {c : ℚ} (l : List Item) (hc : c ≤ 0) : fracTakes c l = [] := by
  cases l with
  | nil => rfl
  | cons it rest => rw [fracTakes, if_pos hc]

/-- Density bound: if every item's profit is at most `d` times its weight,
the fractional greedy value is at most `d` times the capacity. -/
theorem fracTakes_profit_le_mul (d : ℚ) (hd : 0 ≤ d) (l : List Item) :
    (∀ it ∈ l, (it.profit : ℚ) ≤ d * it.weight) →
    ∀ c : ℚ, 0 ≤ c → ppiProfitSum (fracTakes c l) ≤ d * c := by
  induction l with
  | nil =>
    intro _ c hc
    simpa [fracTakes, ppiProfitSum] using mul_nonneg hd hc
  | cons it rest ih =>
    intro hpd c hc
    by_cases h : c ≤ 0
    · rw [fracTakes_nonpos _ h]
      simpa [ppiProfitSum] using mul_nonneg hd hc
    · push_neg at h
      rw [fracTakes, if_neg (not_le.mpr h), ppiProfitSum_cons]
      simp only [PartialPackedItem.effectiveProfit]
      have ht0 : 0 ≤ takeFraction c it := takeFraction_nonneg it hc
      have hrem0 : 0 ≤ c - (it.weight : ℚ) * takeFraction c it := by
        have := spent_le it h; linarith
      have hr := ih (fun x hx => hpd x (List.mem_cons_of_mem it hx))
        (c - (it.weight : ℚ) * takeFraction c it) hrem0
      have hpt : (it.profit : ℚ) * takeFraction c it
          ≤ (d * it.weight) * takeFraction c it :=
        mul_le_mul_of_nonneg_right (hpd it (List.mem_cons_self it rest)) ht0
      nlinarith [hr, hpt]

/-- Lipschitz bound: lowering the capacity from `c` to `c'` costs the
greedy at most `d * (c - c')` profit, where `d` bounds every density. -/
theorem fracTakes_profit_lipschitz (d : ℚ) (hd : 0 ≤ d) (l : List Item) :
    (∀ it ∈ l, (it.profit : ℚ) ≤ d * it.weight) →
    ∀ c c' : ℚ, 0 ≤ c' → c' ≤ c →
      ppiProfitSum (fracTakes c l) ≤ ppiProfitSum (fracTakes c' l) + d * (c - c') := by
  induction l with
  | nil =>
    intro _ c c' hc' hcc
    simp only [fracTakes, ppiProfitSum, List.map_nil, List.sum_nil, zero_add]
    exact mul_nonneg hd (by linarith)
  | cons it rest ih =>
    intro hpd c c' hc' hcc
    by_cases hc0 : c ≤ 0
    · have hceq : c = 0 := le_antisymm hc0 (le_trans hc' hcc)
      have hc'eq : c' = 0 := le_antisymm (hceq ▸ hcc) hc'
      rw [hceq, hc'eq]
      simp
    · push_neg at hc0
      by_cases hc'0 : c' ≤ 0
      · have hc'eq : c' = 0 := le_antisymm hc'0 hc'
        have hzero : ppiProfitSum (fracTakes c' (it :: rest)) = 0 := by
          rw [fracTakes_nonpos _ hc'0]; simp [ppiProfitSum]
        rw [hzero, hc'eq]
        simpa using fracTakes_profit_le_mul d hd (it :: rest) hpd c (le_of_lt hc0)
      · push_neg at hc'0
        rw [fracTakes, if_neg (not_le.mpr hc0), ppiProfitSum_cons,
          fracTakes, if_neg (not_le.mpr hc'0), ppiProfitSum_cons]
        simp only [PartialPackedItem.effectiveProfit]
        have hmono : takeFraction c' it ≤ takeFraction c it := takeFraction_mono it hcc
        have hremmono := remaining_mono it hcc
        have hrem' : 0 ≤ c' - (it.weight : ℚ) * takeFraction c' it := by
          have := spent_le it hc'0; linarith
        have hr := ih (fun x hx => hpd x (List.mem_cons_of_mem it hx))
          (c - (it.weight : ℚ) * takeFraction c it)
          (c' - (it.weight : ℚ) * takeFraction c' it) hrem' hremmono
        have hpd0 := hpd it (List.mem_cons_self it rest)
        have k1 : (it.profit : ℚ) * (takeFraction c it - takeFraction c' it)
            ≤ (d * it.weight) * (takeFraction c it - takeFraction c' it) :=
          mul_le_mul_of_nonneg_right hpd0 (by linarith)
        nlinarith [hr, k1]

/-- Exchange/domination lemma: on a ratio-sorted list of positive-profit
items, no feasible 0/1 sub-selection beats the fractional greedy value.
(The hypothesis on zero-weight items rules out the only degenerate case:
capacity 0 with a free item, where the greedy loop exits before taking
anything.) -/
theorem sublist_profit_le_fracTakes (l : List Item) :
    ∀ t : List Item, t.Sublist l → List.Sorted ratioLe l → (∀ it ∈ l, 0 < it.profit) →
    ∀ c : ℚ, 0 ≤ c → (∀ it ∈ l, it.weight = 0 → 0 < c) →
    (weightSum t : ℚ) ≤ c → (profitSum t : ℚ) ≤ ppiProfitSum (fracTakes c l) := by
  induction l with
  | nil =>
    intro t ht _ _ c _ _ _
    rw [List.sublist_nil.mp ht]
    simp [profitSum, fracTakes, ppiProfitSum]
  | cons it rest ih =>
    intro t ht hsort hp c hc hzw hwt
    by_cases hc0 : c ≤ 0
    · have hceq : c = 0 := le_antisymm hc0 hc
      have ht0 : t = [] := by
        cases t with
        | nil => rfl
        | cons x t' =>
          exfalso
          have hx : x ∈ it :: rest := ht.subset (List.mem_cons_self x t')
          have h1 : (weightSum (x :: t') : ℚ) ≤ 0 := by rw [← hceq]; exact hwt
          have h2 : (weightSum (x :: t') : ℚ) = 0 := le_antisymm h1 (by positivity)
          have h3 : weightSum (x :: t') = 0 := by exact_mod_cast h2
          have hxw : x.weight = 0 := by
            simp only [weightSum, List.map_cons, List.sum_cons] at h3
            omega
          exact absurd (hzw x hx hxw) (by rw [hceq]; exact lt_irrefl 0)
      rw [ht0, fracTakes_nonpos _ hc0]
      simp [profitSum, ppiProfitSum]
    · push_neg at hc0
      rw [fracTakes, if_neg (not_le.mpr hc0), ppiProfitSum_cons]
      simp only [PartialPackedItem.effectiveProfit]
      have hsort' : List.Sorted ratioLe rest := hsort.of_cons
      have hp' : ∀ x ∈ rest, 0 < x.profit := fun x hx => hp x (List.mem_cons_of_mem it hx)
      have hppos : (0 : ℚ) < (it.profit : ℚ) := by
        exact_mod_cast hp it (List.mem_cons_self it rest)
      have htknn : 0 ≤ takeFraction c it := takeFraction_nonneg it hc
      cases ht with
      | cons _a ht' =>
        by_cases hw : it.weight = 0
        · have hr := ih t ht' hsort' hp' c hc (fun _ _ _ => hc0) hwt
          rw [takeFraction, if_pos hw]
          simp only [hw, Nat.cast_zero, zero_mul, sub_zero, mul_one]
          linarith
        · have hwpos : (0 : ℚ) < (it.weight : ℚ) := by
            exact_mod_cast Nat.pos_of_ne_zero hw
          have hd : (0 : ℚ) ≤ (it.profit : ℚ) / (it.weight : ℚ) := by positivity
          have hpd : ∀ x ∈ rest,
              (x.profit : ℚ) ≤ ((it.profit : ℚ) / (it.weight : ℚ)) * x.weight := by
            intro x hx
            have hrel : ratioLe it x := List.rel_of_sorted_cons hsort x hx
            have hpx : (0 : ℚ) < (x.profit : ℚ) := by exact_mod_cast hp' x hx
            rw [ratioLe, Item.weightProfitRatio, Item.weightProfitRatio,
              div_le_div_iff₀ hppos hpx] at hrel
            rw [div_mul_eq_mul_div, le_div_iff₀ hwpos]
            nlinarith [hrel]
          have hr := ih t ht' hsort' hp' c hc (fun _ _ _ => hc0) hwt
          have hrem0 : 0 ≤ c - (it.weight : ℚ) * takeFraction c it := by
            have := spent_le it hc0; linarith
          have hremle : c - (it.weight : ℚ) * takeFraction c it ≤ c := by
            have := spent_nonneg it hc; linarith
          have hlip := fracTakes_profit_lipschitz ((it.profit : ℚ) / (it.weight : ℚ)) hd rest
            hpd c (c - (it.weight : ℚ) * takeFraction c it) hrem0 hremle
          have hcalc : ((it.profit : ℚ) / (it.weight : ℚ))
              * (c - (c - (it.weight : ℚ) * takeFraction c it))
              = (it.profit : ℚ) * takeFraction c it := by
            have hsimp : c - (c - (it.weight : ℚ) * takeFraction c it)
                = (it.weight : ℚ) * takeFraction c it := by ring
            rw [hsimp]
            field_simp
            ring
          linarith [hr, hlip, hcalc.le, hcalc.ge]
      | cons₂ _a ht' =>
        rename_i t'
        have hwt' : (it.weight : ℚ) + (weightSum t' : ℚ) ≤ c := by
          have : weightSum (it :: t') = it.weight + weightSum t' := by
            simp [weightSum]
          rw [this] at hwt
          push_cast at hwt
          exact hwt
        have hps : (profitSum (it :: t') : ℚ) = (it.profit : ℚ) + (profitSum t' : ℚ) := by
          have : profitSum (it :: t') = it.profit + profitSum t' := by
            simp [profitSum]
          rw [this]
          push_cast
          ring
        have hwnn : (0 : ℚ) ≤ (weightSum t' : ℚ) := by positivity
        by_cases hw : it.weight = 0
        · rw [takeFraction, if_pos hw]
          simp only [hw, Nat.cast_zero, zero_mul, sub_zero, mul_one]
          have hr := ih t' ht' hsort' hp' c hc (fun _ _ _ => hc0)
            (by rw [hw] at hwt'; push_cast at hwt'; linarith)
          rw [hps]
          linarith
        · have hwpos : (0 : ℚ) < (it.weight : ℚ) := by
            exact_mod_cast Nat.pos_of_ne_zero hw
          have hwc : (it.weight : ℚ) ≤ c := by linarith
          have ht1 : takeFraction c it = 1 := takeFraction_eq_one it hwc
          rw [ht1, mul_one, mul_one]
          have hwrest : ∀ x ∈ rest, 0 < x.weight := by
            intro x hx
            by_contra h0
            have hx0 : x.weight = 0 := Nat.eq_zero_of_not_pos h0
            have hrel : ratioLe it x := List.rel_of_sorted_cons hsort x hx
            rw [ratioLe, Item.weightProfitRatio, Item.weightProfitRatio, hx0] at hrel
            simp only [Nat.cast_zero, zero_div] at hrel
            have : (0 : ℚ) < (it.weight : ℚ) / (it.profit : ℚ) := by positivity
            linarith
          have hr := ih t' ht' hsort' hp' (c - (it.weight : ℚ)) (by linarith)
            (fun x hx hx0 => absurd hx0 (Nat.pos_iff_ne_zero.mp (hwrest x hx)))
            (by linarith)
          rw [hps]
          linarith

/-- The integer greedy loop only appends items of the input, in order:
its result extends the accumulator by a sublist of the input. -/
theorem intGo_sublist (weightCapacity : ℕ) (l : List Item) :
    ∀ ks, ∃ t, t.Sublist l ∧ intGo weightCapacity l ks = ks ++ t := by
  induction l with
  | nil => intro ks; exact ⟨[], List.Sublist.refl [], by simp [intGo]⟩
  | cons it rest ih =>
    intro ks
    rw [intGo]
    split
    · exact ⟨[], List.nil_sublist _, by simp⟩
    · split
      · obtain ⟨t, hts, heq⟩ := ih ks
        exact ⟨t, hts.cons it, heq⟩
      · obtain ⟨t, hts, heq⟩ := ih (ks ++ [it])
        exact ⟨it :: t, hts.cons₂ it, by rw [heq, List.append_assoc]; rfl⟩

/-- Capacity 0: the integer greedy loop breaks before taking anything. -/
theorem intGo_zero (l : List Item) : intGo 0 l [] = [] := by
  cases l with
  | nil => rfl
  | cons it rest => rw [intGo]; simp [weightSum]

-- ------- The 0/1 optimum, and the solvers against it -------

theorem opt_cons (it : Item) (l : List Item) (c : ℕ) :
    opt (it :: l) c =
      if it.weight ≤ c then max (opt l c) (it.profit + opt l (c - it.weight))
      else opt l c := rfl

/-- The optimum does not depend on the order of the items. -/
theorem opt_perm {l₁ l₂ : List Item} (h : l₁.Perm l₂) : ∀ c, opt l₁ c = opt l₂ c := by
  induction h with
  | nil => intro c; rfl
  | cons x _ ih => intro c; rw [opt_cons, opt_cons, ih c, ih (c - x.weight)]
  | swap x y l =>
    intro c
    simp only [opt_cons]
    rw [show c - x.weight - y.weight = c - y.weight - x.weight by omega]
    split_ifs <;> omega
  | trans _ _ ih₁ ih₂ => intro c; rw [ih₁ c, ih₂ c]

/-- Appending one item at the back obeys the usual knapsack recurrence. -/
theorem opt_append_singleton (l : List Item) (it : Item) (c : ℕ) :
    opt (l ++ [it]) c =
      if it.weight ≤ c then max (opt l c) (it.profit + opt l (c - it.weight))
      else opt l c := by
  rw [opt_perm (List.perm_append_singleton it l) c]
  rfl

/-- One DP item-iteration turns the profit row for `l` into the profit row
for `l ++ [item]`. -/
theorem dpStep_profit (row : List (List Item)) (item : Item) (l : List Item)
    (weightCapacity : ℕ) (hlen : row.length = weightCapacity + 1)
    (hprofit : ∀ i ≤ weightCapacity, profitSum (row.getD i []) = opt l i) :
    ∀ i ≤ weightCapacity,
      profitSum ((dpStep row item).getD i []) = opt (l ++ [item]) i := by
  intro i hi
  rw [dpStep, hlen, getD_range_map, if_pos (by omega)]
  rw [dpCell, opt_append_singleton]
  by_cases hw : item.weight ≤ i
  · rw [if_neg (by omega : ¬item.weight > i), if_pos hw]
    have h1 := hprofit i hi
    have h2 := hprofit (i - item.weight) (by omega)
    split_ifs with hcmp
    · omega
    · rw [profitSum_append]
      have h3 : profitSum [item] = item.profit := by simp [profitSum]
      omega
  · rw [if_pos (by omega : item.weight > i), if_neg hw]
    exact hprofit i hi

theorem dp_foldl_profit (weightCapacity : ℕ) (items : List Item) :
    ∀ (pre : List Item) (row : List (List Item)), row.length = weightCapacity + 1 →
      (∀ i ≤ weightCapacity, profitSum (row.getD i []) = opt pre i) →
      ∀ i ≤ weightCapacity,
        profitSum ((items.foldl dpStep row).getD i []) = opt (pre ++ items) i := by
  induction items with
  | nil =>
    intro pre row _ hp i hi
    simpa using hp i hi
  | cons it rest ih =>
    intro pre row hlen hp i hi
    rw [List.foldl_cons]
    have hstep := dpStep_profit row it pre weightCapacity hlen hp
    have hlen' : (dpStep row it).length = weightCapacity + 1 := by
      rw [dpStep_length, hlen]
    have hres := ih (pre ++ [it]) (dpStep row it) hlen' hstep i hi
    rw [hres, List.append_assoc]
    rfl

/-- The dynamic-programming solver's profit is the 0/1 optimum. -/
theorem dp_profit_eq_opt (items : List Item) (weightCapacity : ℕ) :
    profitSum (knapsackDynamicProgramming items weightCapacity) = opt items weightCapacity := by
  rw [knapsackDynamicProgramming]
  have hrepl : ∀ i, (List.replicate (weightCapacity + 1) ([] : List Item)).getD i [] = [] := by
    intro i
    by_cases h : i < weightCapacity + 1 <;>
      simp [List.getD_eq_getElem?_getD, List.getElem?_replicate, h]
  have hinit : ∀ i ≤ weightCapacity,
      profitSum ((List.replicate (weightCapacity + 1) ([] : List Item)).getD i []) = opt [] i := by
    intro i _
    rw [hrepl i]
    rfl
  have hmain := dp_foldl_profit weightCapacity items [] (List.replicate (weightCapacity + 1) [])
    (by simp) hinit weightCapacity (le_refl weightCapacity)
  have hlenf : (items.foldl dpStep (List.replicate (weightCapacity + 1) [])).length
      = weightCapacity + 1 := by
    rw [dp_foldl_length]; simp
  rw [List.getLast?_eq_getElem?, hlenf] at *
  simpa [List.getD_eq_getElem?_getD, hlenf] using hmain

/-- Any feasible sub-selection's profit is bounded by the optimum. -/
theorem sublist_profit_le_opt {t l : List Item} (h : t.Sublist l) :
    ∀ c, weightSum t ≤ c → profitSum t ≤ opt l c := by
  induction h with
  | slnil => intro c _; exact Nat.zero_le _
  | cons a _h ih =>
    intro c hc
    refine le_trans (ih c hc) ?_
    rw [opt_cons]
    split
    · exact le_max_left _ _
    · exact le_refl _
  | cons₂ a _h ih =>
    rename_i t₁ l₁
    intro c hc
    have hwc : weightSum (a :: t₁) = a.weight + weightSum t₁ := by simp [weightSum]
    have hpc : profitSum (a :: t₁) = a.profit + profitSum t₁ := by simp [profitSum]
    have hwa : a.weight ≤ c := by omega
    rw [opt_cons, if_pos hwa]
    have hr := ih (c - a.weight) (by omega)
    omega

/-- The optimum is attained by some feasible sub-selection. -/
theorem opt_achieved (l : List Item) :
    ∀ c, ∃ t, t.Sublist l ∧ weightSum t ≤ c ∧ profitSum t = opt l c := by
  induction l with
  | nil =>
    intro c
    exact ⟨[], List.Sublist.refl [], by simp [weightSum], rfl⟩
  | cons it rest ih =>
    intro c
    rw [opt_cons]
    by_cases hw : it.weight ≤ c
    · rw [if_pos hw]
      obtain ⟨t₁, hs₁, hw₁, hp₁⟩ := ih c
      obtain ⟨t₂, hs₂, hw₂, hp₂⟩ := ih (c - it.weight)
      by_cases hcmp : it.profit + opt rest (c - it.weight) ≤ opt rest c
      · exact ⟨t₁, hs₁.cons it, hw₁, by omega⟩
      · refine ⟨it :: t₂, hs₂.cons₂ it, ?_, ?_⟩
        · have : weightSum (it :: t₂) = it.weight + weightSum t₂ := by simp [weightSum]
          omega
        · have : profitSum (it :: t₂) = it.profit + profitSum t₂ := by simp [profitSum]
          omega
    · rw [if_neg hw]
      obtain ⟨t₁, hs₁, hw₁, hp₁⟩ := ih c
      exact ⟨t₁, hs₁.cons it, hw₁, hp₁⟩

/-- The floored fractional greedy value upper-bounds the 0/1 optimum on a
sorted positive-profit positive-weight list. -/
theorem opt_le_floor_frac (l : List Item) (weightLimit : ℕ)
    (hsort : List.Sorted ratioLe l) (hp : ∀ it ∈ l, 0 < it.profit)
    (hw : ∀ it ∈ l, 0 < it.weight) :
    opt l weightLimit ≤ (⌊ppiProfitSum (fracTakes (weightLimit : ℚ) l)⌋).toNat := by
  obtain ⟨t, hts, hwt, hpt⟩ := opt_achieved l weightLimit
  have hD := sublist_profit_le_fracTakes l t hts hsort hp (weightLimit : ℚ) (by positivity)
    (fun x hx h0 => absurd h0 (Nat.pos_iff_ne_zero.mp (hw x hx))) (by exact_mod_cast hwt)
  rw [hpt] at hD
  have h2 : (opt l weightLimit : ℤ) ≤ ⌊ppiProfitSum (fracTakes (weightLimit : ℚ) l)⌋ :=
    Int.le_floor.mpr (by exact_mod_cast hD)
  omega

theorem bbIncumbent_profit (candidate incumbent : List Item) :
    profitSum (bbIncumbent candidate incumbent)
      = max (profitSum incumbent) (profitSum candidate) := by
  rw [bbIncumbent]
  split <;> omega

/-- Characterization of the branch-and-bound recursion: it returns a
selection whose profit is the better of the incoming incumbent's profit
and the fixed profit plus the optimum over the remaining items. -/
theorem bbGo_profit (l : List Item) :
    ∀ (weightLimit : ℕ) (fixed inc : List Item),
      List.Sorted ratioLe l → (∀ it ∈ l, 0 < it.profit) → (∀ it ∈ l, 0 < it.weight) →
      profitSum (bbGo l weightLimit fixed inc)
        = max (profitSum inc) (profitSum fixed + opt l weightLimit) := by
  induction l with
  | nil =>
    intro weightLimit fixed inc _ _ _
    rw [bbGo]
    have hg : knapsackIntegerGreedy [] weightLimit = [] := rfl
    have hlb : bbLower [] weightLimit fixed = fixed := by
      rw [bbLower, hg, List.append_nil]
    have hincp : profitSum (bbIncumbent (bbLower [] weightLimit fixed) inc)
        = max (profitSum inc) (profitSum fixed) := by
      rw [hlb, bbIncumbent_profit]
    split
    · rw [hincp]
      have : opt [] weightLimit = 0 := rfl
      omega
    · rw [hincp]
      have : opt [] weightLimit = 0 := rfl
      omega
  | cons first rest ih =>
    intro weightLimit fixed inc hsort hp hw
    have hsort' : List.Sorted ratioLe rest := hsort.of_cons
    have hp' : ∀ x ∈ rest, 0 < x.profit := fun x hx => hp x (List.mem_cons_of_mem first hx)
    have hw' : ∀ x ∈ rest, 0 < x.weight := fun x hx => hw x (List.mem_cons_of_mem first hx)
    have hsid : sortItems (first :: rest) = first :: rest :=
      List.Sorted.insertionSort_eq hsort
    obtain ⟨t, hts, heq⟩ := intGo_sublist weightLimit (first :: rest) []
    have hgr : knapsackIntegerGreedy (first :: rest) weightLimit = t := by
      rw [knapsackIntegerGreedy, hsid, heq, List.nil_append]
    have hgw : weightSum t ≤ weightLimit := by
      rw [← hgr]; exact knapsackIntegerGreedy_weight_le _ _
    have hlb : profitSum t ≤ opt (first :: rest) weightLimit :=
      sublist_profit_le_opt hts weightLimit hgw
    have hub : opt (first :: rest) weightLimit
        ≤ (⌊ppiProfitSum (fractionalKnapsackGreedy (first :: rest) weightLimit)⌋).toNat := by
      rw [fractionalKnapsackGreedy, hsid, fracGo_eq_fracTakes]
      simp only [List.nil_append, ppiWeightSum, List.map_nil, List.sum_nil, sub_zero]
      exact opt_le_floor_frac _ _ hsort hp hw
    have hincp : profitSum (bbIncumbent (bbLower (first :: rest) weightLimit fixed) inc)
        = max (profitSum inc) (profitSum fixed + profitSum t) := by
      rw [bbLower, hgr, bbIncumbent_profit, profitSum_append]
    have hub' : profitSum fixed + opt (first :: rest) weightLimit
        ≤ bbUpper (first :: rest) weightLimit fixed := by
      rw [bbUpper]
      omega
    rw [bbGo]
    split
    next hprune =>
      rw [hincp] at *
      omega
    next hprune =>
      have hEx := ih weightLimit fixed
        (bbIncumbent (bbLower (first :: rest) weightLimit fixed) inc) hsort' hp' hw'
      split
      next hfit =>
        have hIn := ih (weightLimit - first.weight) (fixed ++ [first])
          (bbGo rest weightLimit fixed
            (bbIncumbent (bbLower (first :: rest) weightLimit fixed) inc)) hsort' hp' hw'
        rw [hIn, hEx, hincp, profitSum_append]
        have hfp : profitSum [first] = first.profit := by simp [profitSum]
        rw [hfp]
        rw [opt_cons, if_pos hfit] at hlb ⊢
        omega
      next hfit =>
        rw [hEx, hincp]
        rw [opt_cons, if_neg hfit] at hlb ⊢
        omega

-- ------- Claims -------

/-- C1: for every list of items (each with profit > 0) and every capacity,
the selection returned by each knapsack solver — fractional greedy, integer
greedy and dynamic programming — has total (effective) weight at most the
capacity. -/
theorem feasibility_all_solvers (items : List Item) (weightCapacity : ℕ)
    (hp : ∀ it ∈ items, 0 < it.profit) :
    ppiWeightSum (fractionalKnapsackGreedy items weightCapacity) ≤ (weightCapacity : ℚ) ∧
    weightSum (knapsackIntegerGreedy items weightCapacity) ≤ weightCapacity ∧
    weightSum (knapsackDynamicProgramming items weightCapacity) ≤ weightCapacity :=
  ⟨fractionalKnapsackGreedy_weight_le items weightCapacity,
   knapsackIntegerGreedy_weight_le items weightCapacity,
   knapsackDynamicProgramming_weight_le items weightCapacity⟩

/-- Witness for C1 at a concrete positive-profit instance. -/
theorem feasibility_all_solvers_witness :
    (∀ it ∈ [Item.mk 0 6 2, Item.mk 1 5 3], 0 < it.profit) ∧
    (ppiWeightSum (fractionalKnapsackGreedy [Item.mk 0 6 2, Item.mk 1 5 3] 4) ≤ (4 : ℚ) ∧
     weightSum (knapsackIntegerGreedy [Item.mk 0 6 2, Item.mk 1 5 3] 4) ≤ 4 ∧
     weightSum (knapsackDynamicProgramming [Item.mk 0 6 2, Item.mk 1 5 3] 4) ≤ 4) :=
  ⟨by decide, feasibility_all_solvers [Item.mk 0 6 2, Item.mk 1 5 3] 4 (by decide)⟩

/-- C4 counterexample: on the empty input the table has 0 rows, not
`n + 1 = 1`, and in particular no base row `{0}`. -/
theorem subsetSum_empty_no_base_row :
    subsetSum [] = [] ∧ (subsetSum ([] : List ℕ)).length ≠ List.length ([] : List ℕ) + 1 := by
  constructor
  · rfl
  · decide

/-- C4 (amended to non-empty inputs): for every non-empty input of `n`
numbers the table has `n + 1` rows, row 0 is `{0}`, and each row `i + 1` is
row `i` united with row `i` shifted by `numbers[i]`. -/
theorem subsetSum_table_rows (numbers : List ℕ) (h : numbers ≠ []) :
    (subsetSum numbers).length = numbers.length + 1 ∧
    (subsetSum numbers).getD 0 ∅ = {0} ∧
    ∀ i < numbers.length,
      (subsetSum numbers).getD (i + 1) ∅ =
        (subsetSum numbers).getD i ∅ ∪
          ((subsetSum numbers).getD i ∅).image (fun s => s + numbers.getD i 0) := by
  rw [subsetSum_eq_scanl numbers h]
  refine ⟨by simp [List.length_scanl], scanl_getD_zero numbers {0}, ?_⟩
  intro i hi
  rw [scanl_getD_succ numbers {0} i hi]
  rfl

/-- Witness for C4 at the concrete input `[5]`. -/
theorem subsetSum_table_rows_witness :
    (subsetSum [5]).length = 2 ∧
    (subsetSum [5]).getD 1 ∅ =
      (subsetSum [5]).getD 0 ∅ ∪ ((subsetSum [5]).getD 0 ∅).image (fun s => s + 5) :=
  ⟨(subsetSum_table_rows [5] (by decide)).1, by
    have := (subsetSum_table_rows [5] (by decide)).2.2 0 (by decide)
    simpa using this⟩

/-- C5: on the 7-item instance with capacity 9, the dynamic-programming
solver returns the selection consisting exactly of the weight-2/profit-6
item and the weight-7/profit-9 item, with total profit 15. -/
theorem dp_concrete_scenario :
    knapsackDynamicProgramming dpItems 9 = [⟨0, 6, 2⟩, ⟨3, 9, 7⟩] ∧
    profitSum (knapsackDynamicProgramming dpItems 9) = 15 := by
  constructor <;> decide

/-- C6 counterexample: on the canonical 16-item instance with capacity
120, the fractional greedy solver does not select item 16 at all. -/
theorem frac_concrete_no_id16 :
    (fractionalKnapsackGreedy items16 120).filter (fun p => p.item.id == 16) = [] := by
  norm_num [fractionalKnapsackGreedy, sortItems, ratioLe, Item.weightProfitRatio, fracGo,
    takeFraction, ppiWeightSum, PartialPackedItem.effectiveWeight, items16, List.filter]
  rfl

/-- C6 (amended): the fractional greedy solver selects items 6, 4, 13, 12,
3, 9 fully and item 15 at exactly 6/10 — item 16 is not selected — and the
total effective profit is 46. -/
theorem frac_concrete_selection :
    (fractionalKnapsackGreedy items16 120).map (fun p => (p.item.id, p.takePortion))
      = [(6, 1), (4, 1), (13, 1), (12, 1), (3, 1), (9, 1), (15, 6 / 10)] ∧
    ppiProfitSum (fractionalKnapsackGreedy items16 120) = 46 := by
  constructor <;>
    norm_num [fractionalKnapsackGreedy, sortItems, ratioLe, Item.weightProfitRatio, fracGo,
      takeFraction, ppiWeightSum, ppiProfitSum, PartialPackedItem.effectiveWeight,
      PartialPackedItem.effectiveProfit, items16]

/-- C7 counterexample: an item with profit 0 and positive weight compares
successfully against a normal item (ratio +∞, ordered after it) — no
"incomparable item" error arises — and in the only undefined case
(profit 0 and weight 0, ratio NaN) the comparison aborts with the
`expect` panic (modelled `none`) instead of returning a typed error. -/
theorem cmp_zero_profit_no_typed_error :
    cmpItemsChecked ⟨0, 0, 1⟩ ⟨1, 1, 1⟩ = some Ordering.gt ∧
    cmpItemsChecked ⟨2, 0, 0⟩ ⟨1, 1, 1⟩ = none := by
  constructor <;> decide

/-- C7 (amended): comparing a zero-profit item with a positive-profit item
never produces a typed error: if its weight is positive its ratio is +∞ and
it simply sorts after the other item; only a zero-profit zero-weight item
(NaN ratio) makes `partial_cmp` return `None`, upon which `cmp_items`
panics via `expect` inside the sort. -/
theorem cmp_items_zero_profit_behaviour (a b : Item)
    (ha : a.profit = 0) (hb : 0 < b.profit) :
    (a.weight ≠ 0 → cmpItemsChecked a b = some Ordering.gt) ∧
    (a.weight = 0 → cmpItemsChecked a b = none) := by
  constructor <;> intro hw <;>
    simp [cmpItemsChecked, weightProfitRatioExt, fractionPartialCmp, ha, hw, hb.ne']

/-- Witness for C7 at concrete items. -/
theorem cmp_items_zero_profit_behaviour_witness :
    cmpItemsChecked ⟨3, 0, 2⟩ ⟨1, 1, 1⟩ = some Ordering.gt :=
  (cmp_items_zero_profit_behaviour ⟨3, 0, 2⟩ ⟨1, 1, 1⟩ rfl (by decide)).1 (by decide)

/-- C8: no capacity subtraction underflows.  In the integer greedy loop
the knapsack state reached before any iteration is the run over a prefix
of the sorted items, and its weight — the subtrahend of
`weight_capacity - used_knapsack_weight` — never exceeds the capacity;
in the dynamic-programming solver, replacing the saturating subtraction
with checked subtraction never fails and yields the same result, because
the fit check precedes the subtraction. -/
theorem no_underflow_subtractions (items : List Item) (weightCapacity : ℕ) :
    (∀ k, weightSum (intGo weightCapacity ((sortItems items).take k) []) ≤ weightCapacity) ∧
    knapsackDPChecked items weightCapacity
      = some (knapsackDynamicProgramming items weightCapacity) :=
  ⟨fun k => intGo_weight_le weightCapacity ((sortItems items).take k) [] (by simp [weightSum]),
   knapsackDPChecked_eq items weightCapacity⟩

set_option maxRecDepth 10000 in
/-- C9 counterexample: 175 is reachable (7+20+29+31+31+57 = 175), so the
final row does contain 175, contrary to the claim. -/
theorem subsetSum_concrete_175_reachable :
    175 ∈ ((subsetSum testNumbers).getLast?).getD ∅ := by
  decide

set_option maxRecDepth 10000 in
/-- C9 (amended): the final row of the subset-sum table on the test numbers
equals the precomputed 174-element reference set, and that set contains
both 174 and 175. -/
theorem subsetSum_concrete_scenario :
    ((subsetSum testNumbers).getLast?).getD ∅ = refSums ∧
    174 ∈ refSums ∧ 175 ∈ refSums ∧ refSums.card = 174 := by
  refine ⟨by decide, by decide, by decide, by decide⟩

/-- C10: on the empty input `subset_sum` returns a table with zero rows
(no base row `{0}`), while for every non-empty input the first row of the
table is `{0}`. -/
theorem subsetSum_empty_and_base_row :
    subsetSum [] = [] ∧
    ∀ numbers : List ℕ, numbers ≠ [] → (subsetSum numbers).head? = some {0} := by
  constructor
  · rfl
  · intro numbers h
    rw [subsetSum_eq_scanl numbers h]
    cases numbers with
    | nil => exact absurd rfl h
    | cons a t => simp [List.scanl]

/-- Witness for C10 at the concrete input `[5]`. -/
theorem subsetSum_empty_and_base_row_witness :
    (subsetSum [5]).head? = some {0} :=
  subsetSum_empty_and_base_row.2 [5] (by decide)

/-- C3: for every list of positive-profit items and every capacity, the
total effective profit of the fractional greedy solver's output is at
least the total profit of the integer greedy heuristic's output. -/
theorem frac_profit_ge_int_greedy (items : List Item) (weightCapacity : ℕ)
    (hp : ∀ it ∈ items, 0 < it.profit) :
    (profitSum (knapsackIntegerGreedy items weightCapacity) : ℚ)
      ≤ ppiProfitSum (fractionalKnapsackGreedy items weightCapacity) := by
  have hperm := List.perm_insertionSort ratioLe items
  have hsorted : List.Sorted ratioLe (sortItems items) :=
    List.sorted_insertionSort ratioLe items
  have hpL : ∀ it ∈ sortItems items, 0 < it.profit := fun it h => hp it (hperm.subset h)
  obtain ⟨t, hts, heq⟩ := intGo_sublist weightCapacity (sortItems items) []
  have hk : knapsackIntegerGreedy items weightCapacity = t := by
    rw [knapsackIntegerGreedy, heq, List.nil_append]
  have hwle : weightSum t ≤ weightCapacity := by
    rw [← hk]; exact knapsackIntegerGreedy_weight_le items weightCapacity
  rw [hk, fractionalKnapsackGreedy, fracGo_eq_fracTakes]
  simp only [List.nil_append, ppiWeightSum, List.map_nil, List.sum_nil, sub_zero]
  by_cases hcap : weightCapacity = 0
  · subst hcap
    have ht0 : t = [] := by rw [← hk, knapsackIntegerGreedy, intGo_zero]
    rw [ht0, fracTakes_nonpos _ (by norm_num)]
    simp [profitSum, ppiProfitSum]
  · have hcpos : (0 : ℚ) < (weightCapacity : ℚ) := by
      exact_mod_cast Nat.pos_of_ne_zero hcap
    exact sublist_profit_le_fracTakes (sortItems items) t hts hsorted hpL
      (weightCapacity : ℚ) (by positivity) (fun _ _ _ => hcpos) (by exact_mod_cast hwle)

/-- Witness for C3 at a concrete positive-profit instance. -/
theorem frac_profit_ge_int_greedy_witness :
    (∀ it ∈ [Item.mk 0 6 2, Item.mk 1 5 3], 0 < it.profit) ∧
    ((profitSum (knapsackIntegerGreedy [Item.mk 0 6 2, Item.mk 1 5 3] 4) : ℚ)
      ≤ ppiProfitSum (fractionalKnapsackGreedy [Item.mk 0 6 2, Item.mk 1 5 3] 4)) :=
  ⟨by decide, frac_profit_ge_int_greedy [Item.mk 0 6 2, Item.mk 1 5 3] 4 (by decide)⟩


/-- C2 counterexample: on the instance with a single zero-weight item of
profit 5 and capacity 0 (all profits positive, as the claim requires),
the branch-and-bound solver returns profit 0 — its greedy bound oracles
treat capacity 0 as a full knapsack and the node is pruned — while the
dynamic-programming solver correctly selects the free item for profit 5. -/
theorem bb_dp_concrete_ne :
    profitSum (branchAndBound [Item.mk 0 5 0] 0)
      ≠ profitSum (knapsackDynamicProgramming [Item.mk 0 5 0] 0) := by
  have h1 : profitSum (branchAndBound [Item.mk 0 5 0] 0) = 0 := by
    norm_num [branchAndBound, bbGo, bbUpper, bbLower, bbIncumbent, sortItems, ratioLe,
      Item.weightProfitRatio, knapsackIntegerGreedy, intGo, fractionalKnapsackGreedy, fracGo,
      weightSum, ppiWeightSum, ppiProfitSum, profitSum]
  have h2 : profitSum (knapsackDynamicProgramming [Item.mk 0 5 0] 0) = 5 := by decide
  omega

/-- C2 (amended to items with positive weight as well as positive profit):
the branch-and-bound solver's profit equals the dynamic-programming
solver's profit, and that common value is the true 0/1 optimum. -/
theorem bb_profit_eq_dp_profit (items : List Item) (weightCapacity : ℕ)
    (h : ∀ it ∈ items, 0 < it.profit ∧ 0 < it.weight) :
    profitSum (branchAndBound items weightCapacity)
      = profitSum (knapsackDynamicProgramming items weightCapacity) ∧
    profitSum (knapsackDynamicProgramming items weightCapacity)
      = opt items weightCapacity := by
  have hdp := dp_profit_eq_opt items weightCapacity
  refine ⟨?_, hdp⟩
  rw [hdp, branchAndBound]
  have hperm := List.perm_insertionSort ratioLe items
  have hbb := bbGo_profit (sortItems items) weightCapacity [] []
    (List.sorted_insertionSort ratioLe items)
    (fun it hit => (h it (hperm.subset hit)).1)
    (fun it hit => (h it (hperm.subset hit)).2)
  have hperm2 : (sortItems items).Perm items := hperm
  rw [hbb, opt_perm hperm2 weightCapacity]
  simp [profitSum]

/-- Witness for C2 at a concrete positive-profit positive-weight
instance. -/
theorem bb_profit_eq_dp_profit_witness :
    (∀ it ∈ [Item.mk 0 6 2], 0 < it.profit ∧ 0 < it.weight) ∧
    (profitSum (branchAndBound [Item.mk 0 6 2] 3)
       = profitSum (knapsackDynamicProgramming [Item.mk 0 6 2] 3) ∧
     profitSum (knapsackDynamicProgramming [Item.mk 0 6 2] 3) = opt [Item.mk 0 6 2] 3) :=
  ⟨by decide, bb_profit_eq_dp_profit [Item.mk 0 6 2] 3 (by decide)⟩


end Aud2

